import Mathlib

/-!
Shallow embedding of `ambigviz.py` (class `BamVisualiser`), for checking its
natural-language specification.

The alignment store (pysam) is modelled by the pileup-column data it serves:
a reference length and a list of pileup columns, each holding the reads
observed at one 0-based reference coordinate.  `count_coverage` and the
pileup iteration of `count_indels` are both derived from this single ground
truth.  Python floats are modelled by `ℚ`; a pandas `NaN` cell is modelled
by `none : Option ℚ`; a Python `KeyError` escaping a function is modelled by
the function returning `none`.
-/

namespace Ambigviz

/-- A nucleotide base as reported by an aligned read. -/
inductive Base where
  | A | C | G | T
deriving DecidableEq, Repr

/-- One aligned read as observed at one pileup column: the base it shows
there (`none` when the read has no aligned base at the column, i.e. a
deletion), its base quality, pysam's ` is_del` flag, and pysam's `indel`
field (net inserted length at the next position). -/
structure ReadObs where
  base : Option Base
  qual : Nat
  isDel : Bool
  indel : Int
deriving DecidableEq, Repr

/-- A pileup column: a 0-based reference coordinate and the reads observed
there (pysam yields only columns where at least one read aligns). -/
structure PileupColumn where
  pos : Nat
  reads : List ReadObs
deriving DecidableEq, Repr

/-- The alignment data of the single active reference contig. -/
structure Bam where
  refLength : Nat
  pileupCols : List PileupColumn
deriving DecidableEq, Repr

/-- Number of reads at 0-based coordinate `i` showing base `b` with quality
at least `qt` — one cell of pysam's `count_coverage` arrays. -/
def covCount (bam : Bam) (qt : Int) (b : Base) (i : Nat) : Nat :=
  (bam.pileupCols.filter (fun col => col.pos = i)).foldl
    (fun acc col =>
      acc + (col.reads.filter (fun r => r.base = some b ∧ qt ≤ (r.qual : Int))).length)
    0

/-- pysam `AlignmentFile.count_coverage` restricted to the single 0-based
column `i`: four counts **in pysam's order A, C, G, T**. -/
def count_coverage (bam : Bam) (qt : Int) (i : Nat) : Nat × Nat × Nat × Nat :=
  (covCount bam qt Base.A i, covCount bam qt Base.C i,
   covCount bam qt Base.G i, covCount bam qt Base.T i)

/-- One row of the targeted-mode tally table: the dict
`{"position": _, "A": _, "T": _, "C": _, "G": _}` of `get_base_counts`. -/
structure PileupRow where
  position : Nat
  A : Nat
  T : Nat
  C : Nat
  G : Nat
deriving DecidableEq, Repr

/-- The `min_depth` loop of `get_base_counts`: every entry of the dict —
the `position` entry included — is set to 0 when it is below `min_depth`. -/
def minDepthFilter (minDepth : Int) (r : PileupRow) : PileupRow :=
  let z : Nat → Nat := fun n => if (n : Int) < minDepth then 0 else n
  { position := z r.position, A := z r.A, T := z r.T, C := z r.C, G := z r.G }

/-- `BamVisualiser.get_base_counts`.  Queries `count_coverage` at the single
0-based column `position - 1`, then zips the string `"ATCG"` against the
arrays, which pysam returns in order A, C, G, T — so the `T`, `C`, `G` dict
keys receive the C, G, T coverage arrays respectively, exactly as the
source's `zip("ATCG", pileup_columns)` does.  Finally applies the
`min_depth` loop over every dict key. -/
def get_base_counts (bam : Bam) (position : Nat) (minDepth : Int) (qt : Int) : PileupRow :=
  let cov := count_coverage bam qt (position - 1)
  minDepthFilter minDepth
    { position := position, A := cov.1, T := cov.2.1, C := cov.2.2.1, G := cov.2.2.2 }

/-- `BamVisualiser.pileup`: one `get_base_counts` row per requested
position, in the order requested. -/
def pileup (bam : Bam) (positions : List Nat) (minDepth : Int) (qt : Int) : List PileupRow :=
  positions.map (fun p => get_base_counts bam p minDepth qt)

/-- Round to the nearest integer, ties to even — numpy/pandas rounding.
(The source rounds binary `float64` values; exact decimal ties model the
intent of `round(2)`.) -/
def roundHalfEven (y : ℚ) : ℤ :=
  let n := ⌊y⌋
  let f := y - n
  if f < 1 / 2 then n
  else if 1 / 2 < f then n + 1
  else if n % 2 = 0 then n else n + 1

/-- pandas `.round(2)`. -/
def round2 (x : ℚ) : ℚ := (roundHalfEven (x * 100) : ℚ) / 100

/-- A targeted-mode row after `pileup_percentages`: the four base columns
are replaced by floats, and a cell is `none` when pandas produced `NaN`
(the 0/0 of a zero-total row). -/
structure PctRow where
  position : Nat
  A : Option ℚ
  T : Option ℚ
  C : Option ℚ
  G : Option ℚ
deriving DecidableEq, Repr

/-- One percentage cell: `count / total * 100` rounded to 2 decimals, or
`NaN` when the row total is zero (in that case every numerator is also 0,
so pandas' `0/0` yields `NaN` in all four cells). -/
def pctCell (count total : ℚ) : Option ℚ :=
  if total = 0 then none else some (round2 (count / total * 100))

/-- `BamVisualiser.pileup_percentages` on one row: divide each of the
`A`,`T`,`C`,`G` columns by the row's four-column total, times 100, rounded
to 2 decimals; other columns untouched. -/
def pileup_percentages_row (r : PileupRow) : PctRow :=
  let t : ℚ := (r.A : ℚ) + (r.T : ℚ) + (r.C : ℚ) + (r.G : ℚ)
  { position := r.position,
    A := pctCell (r.A : ℚ) t, T := pctCell (r.T : ℚ) t,
    C := pctCell (r.C : ℚ) t, G := pctCell (r.G : ℚ) t }

/-- `BamVisualiser.pileup_percentages` over the whole table. -/
def pileup_percentages (l : List PileupRow) : List PctRow :=
  l.map pileup_percentages_row

/-! ## `count_indels` -/

/-- The per-position value of `count_indels`'s dict:
`{"Deletion": _, "Insertion": _}`. -/
structure IndelTally where
  Deletion : Nat
  Insertion : Nat
deriving DecidableEq, Repr

/-- Python dict lookup `d[k]` on an association list (keys are unique in
every dict the program builds, and lookup takes the first match). -/
def alookup (k : Nat) : List (Nat × IndelTally) → Option IndelTally
  | [] => none
  | (k', v) :: rest => if k = k' then some v else alookup k rest

/-- Python dict update `d[k] = f d[k]`: `none` models the `KeyError` raised
when `k` is not among the dict's keys. -/
def updAssoc (k : Nat) (f : IndelTally → IndelTally) :
    List (Nat × IndelTally) → Option (List (Nat × IndelTally))
  | [] => none
  | (k', v) :: rest =>
    if k = k' then some ((k', f v) :: rest)
    else
      match updAssoc k f rest with
      | some rest' => some ((k', v) :: rest')
      | none => none

/-- The dict `count_indels` initialises: every position `1 .. ref_length`
mapped to zero counts. -/
def initIndels (len : Nat) : List (Nat × IndelTally) :=
  (List.range' 1 len).map (fun p => (p, ⟨0, 0⟩))

/-- The body of `count_indels`'s inner loop for one pileup read at the
0-based column `c`: a deletion increments `Deletion` at key `c + 1`,
otherwise a net-positive indel increments `Insertion` at key `c + 2`. -/
def procRead (c : Nat) (d : List (Nat × IndelTally)) (r : ReadObs) :
    Option (List (Nat × IndelTally)) :=
  if r.isDel then
    updAssoc (c + 1) (fun t => ⟨t.Deletion + 1, t.Insertion⟩) d
  else if 0 < r.indel then
    updAssoc (c + 2) (fun t => ⟨t.Deletion, t.Insertion + 1⟩) d
  else
    some d

/-- `count_indels`'s inner loop over the reads of one column. -/
def procReads (c : Nat) (d : List (Nat × IndelTally)) :
    List ReadObs → Option (List (Nat × IndelTally))
  | [] => some d
  | r :: rs =>
    match procRead c d r with
    | some d' => procReads c d' rs
    | none => none

/-- `count_indels`'s outer loop over the pileup columns. -/
def procCols (d : List (Nat × IndelTally)) :
    List PileupColumn → Option (List (Nat × IndelTally))
  | [] => some d
  | col :: cols =>
    match procReads col.pos d col.reads with
    | some d' => procCols d' cols
    | none => none

/-- `BamVisualiser.count_indels`: initialise counts for positions
`1 .. ref_length`, then scan every pileup column; `none` models the
`KeyError` the source raises when an increment targets a missing key. -/
def count_indels (bam : Bam) : Option (List (Nat × IndelTally)) :=
  procCols (initIndels bam.refLength) bam.pileupCols

/-! ## `calculate_all` (whole-reference mode) -/

/-- A whole-reference row before the percentage columns exist: the dict
`{"A": _, "C": _, "G": _, "T": _, "Insertion": _, "Deletion": _}` keyed by
`position`. -/
structure RowN where
  position : Nat
  A : Nat
  T : Nat
  C : Nat
  G : Nat
  Insertion : Nat
  Deletion : Nat
deriving DecidableEq, Repr

/-- A whole-reference row once the six percentage columns exist and the
elementwise thresholding may have turned integer cells into floats: all
thirteen cells as rationals. -/
structure RowQ where
  position : ℚ
  A : ℚ
  T : ℚ
  C : ℚ
  G : ℚ
  Insertion : ℚ
  Deletion : ℚ
  A_percent : ℚ
  T_percent : ℚ
  C_percent : ℚ
  G_percent : ℚ
  Insertion_percent : ℚ
  Deletion_percent : ℚ
deriving DecidableEq, Repr

/-- One row of `calculate_all`'s initial tally: `count_coverage` over the
whole reference with the hardcoded `quality_threshold=8`, indexed at
`pileup_columns[0..3][pos - 1]` in pysam's A, C, G, T order; the
`Insertion`/`Deletion` entries start at 0. -/
def baseRow (bam : Bam) (p : Nat) : RowN :=
  { position := p,
    A := covCount bam 8 Base.A (p - 1),
    C := covCount bam 8 Base.C (p - 1),
    G := covCount bam 8 Base.G (p - 1),
    T := covCount bam 8 Base.T (p - 1),
    Insertion := 0, Deletion := 0 }

/-- `List.mapM` over `Option`, written out so inductions stay direct. -/
def mapOption (f : α → Option β) : List α → Option (List β)
  | [] => some []
  | a :: l =>
    match f a, mapOption f l with
    | some b, some l' => some (b :: l')
    | _, _ => none

/-- The table of `calculate_all` after the optional indel merge: one row
per position `1 .. ref_length`; with `--indels` the `Insertion`/`Deletion`
columns are overwritten from `count_indels`, whose dict is indexed at each
row's position (`none` models a `KeyError` escaping). -/
def withIndels (bam : Bam) (indels : Bool) : Option (List RowN) :=
  let rows := (List.range' 1 bam.refLength).map (baseRow bam)
  if indels then
    match count_indels bam with
    | some d =>
      mapOption
        (fun r =>
          (alookup r.position d).map
            (fun t => { r with Insertion := t.Insertion, Deletion := t.Deletion }))
        rows
    | none => none
  else
    some rows

/-- The row total `df[["A","T","C","G","Insertion","Deletion"]].sum(axis=1)`
on an integer row. -/
def rowTotal (r : RowN) : Nat :=
  r.A + r.T + r.C + r.G + r.Insertion + r.Deletion

/-- Line 171: keep only rows whose six-column total is positive. -/
def dropZero (rows : List RowN) : List RowN :=
  rows.filter (fun r => 0 < rowTotal r)

/-- Lines 177-208: append the six percentage columns, each
`count / six-column total * 100` (no rounding in this code path). -/
def addPercents (r : RowN) : RowQ :=
  let t : ℚ := (rowTotal r : ℚ)
  { position := (r.position : ℚ),
    A := (r.A : ℚ), T := (r.T : ℚ), C := (r.C : ℚ), G := (r.G : ℚ),
    Insertion := (r.Insertion : ℚ), Deletion := (r.Deletion : ℚ),
    A_percent := (r.A : ℚ) / t * 100,
    T_percent := (r.T : ℚ) / t * 100,
    C_percent := (r.C : ℚ) / t * 100,
    G_percent := (r.G : ℚ) / t * 100,
    Insertion_percent := (r.Insertion : ℚ) / t * 100,
    Deletion_percent := (r.Deletion : ℚ) / t * 100 }

/-- The table as it stands after the percentage columns are computed and
before the `read_fraction` thresholding (end of line 208). -/
def percentTable (bam : Bam) (indels : Bool) : Option (List RowQ) :=
  (withIndels bam indels).map (fun rows => (dropZero rows).map addPercents)

/-- One cell of line 211's elementwise mask assignment
`df[df < read_fraction] = 0`. -/
def thr (rf x : ℚ) : ℚ := if x < rf then 0 else x

/-- Line 211 on one row: every cell of the dataframe — the `position`
cell, the six raw-count cells and the six percentage cells alike — is
zeroed when it is strictly below `read_fraction`. -/
def thresholdRow (rf : ℚ) (r : RowQ) : RowQ :=
  { position := thr rf r.position,
    A := thr rf r.A, T := thr rf r.T, C := thr rf r.C, G := thr rf r.G,
    Insertion := thr rf r.Insertion, Deletion := thr rf r.Deletion,
    A_percent := thr rf r.A_percent, T_percent := thr rf r.T_percent,
    C_percent := thr rf r.C_percent, G_percent := thr rf r.G_percent,
    Insertion_percent := thr rf r.Insertion_percent,
    Deletion_percent := thr rf r.Deletion_percent }

/-- Number of the six percentage cells of a row that are nonzero
(line 214's `(df[percent_cols] != 0).sum(axis=1)`). -/
def nzPercents (r : RowQ) : Nat :=
  (if r.A_percent ≠ 0 then 1 else 0) + (if r.T_percent ≠ 0 then 1 else 0) +
  (if r.C_percent ≠ 0 then 1 else 0) + (if r.G_percent ≠ 0 then 1 else 0) +
  (if r.Insertion_percent ≠ 0 then 1 else 0) +
  (if r.Deletion_percent ≠ 0 then 1 else 0)

/-- Lines 213-229: keep only rows with more than one nonzero percentage
cell. -/
def ambiguityFilter (rows : List RowQ) : List RowQ :=
  rows.filter (fun r => 1 < nzPercents r)

/-- The six-column raw sum of a thresholded row. -/
def rawSumQ (r : RowQ) : ℚ :=
  r.A + r.T + r.C + r.G + r.Insertion + r.Deletion

/-- Lines 231-235: drop rows whose six raw-count cells now sum to zero. -/
def dropZeroQ (rows : List RowQ) : List RowQ :=
  rows.filter (fun r => 0 < rawSumQ r)

/-- `BamVisualiser.calculate_all` up to the table written to
`mixed_bases.csv` (line 237), which still carries the percentage columns.
The caller-supplied `quality_threshold` travels in `args` but the base
counting of this mode hardcodes 8; `none` models a `KeyError` escaping the
indel merge. -/
def calculate_all (bam : Bam) (qualityThreshold : Int) (rf : ℚ) (indels : Bool) :
    Option (List RowQ) :=
  (percentTable bam indels).map
    (fun rows => dropZeroQ (ambiguityFilter (rows.map (thresholdRow rf))))

/-! ## Concrete alignment data used in witnesses and counterexamples -/

/-- A read showing base A with quality 30 and no indel. -/
def readA : ReadObs := ⟨some Base.A, 30, false, 0⟩

/-- A read showing base T with quality 30 and no indel. -/
def readT : ReadObs := ⟨some Base.T, 30, false, 0⟩

/-- A read showing base C with quality 30 and no indel. -/
def readC : ReadObs := ⟨some Base.C, 30, false, 0⟩

/-- A read with a deletion at the column. -/
def readDel : ReadObs := ⟨none, 0, true, 0⟩

/-- A read showing base A with a net-positive insertion after the column. -/
def readIns : ReadObs := ⟨some Base.A, 30, false, 2⟩

/-- Reference of length 1 whose single column carries 3 A-reads and
2 T-reads. -/
def bamAT : Bam := ⟨1, [⟨0, List.replicate 3 readA ++ List.replicate 2 readT⟩]⟩

/-- Reference of length 5 whose 0-based column 4 carries 3 A-reads and
2 C-reads (the `"ATCG"` zip routes the C coverage array to the `T` dict
key, so the unfiltered targeted tally at position 5 is
`{A:3, T:2, C:0, G:0}`). -/
def bamAC : Bam := ⟨5, [⟨4, List.replicate 3 readA ++ List.replicate 2 readC⟩]⟩

/-- Reference of length 2 whose two columns each carry 6 A-reads and
5 T-reads. -/
def bamTwoCols : Bam :=
  ⟨2, [⟨0, List.replicate 6 readA ++ List.replicate 5 readT⟩,
       ⟨1, List.replicate 6 readA ++ List.replicate 5 readT⟩]⟩

/-- Reference of length 2 with an insertion-bearing read at the last
0-based column 1. -/
def bamLastIns : Bam := ⟨2, [⟨0, [readA]⟩, ⟨1, [readIns]⟩]⟩

/-- Reference of length 3 with a deletion and an insertion at 0-based
column 0 and a plain read at column 1. -/
def bamMidIndel : Bam := ⟨3, [⟨0, [readIns, readDel]⟩, ⟨1, [readA]⟩]⟩

/-- The row the whole-reference pipeline produces (twice) on `bamTwoCols`
with `read_fraction = 5`: position zeroed, raw counts 6 and 5 kept. -/
def rowTwo : RowQ :=
  { position := 0, A := 6, T := 5, C := 0, G := 0, Insertion := 0, Deletion := 0,
    A_percent := 600 / 11, T_percent := 500 / 11, C_percent := 0, G_percent := 0,
    Insertion_percent := 0, Deletion_percent := 0 }

/-- The single row of `percentTable bamAT false`. -/
def pRowAT : RowQ :=
  { position := 1, A := 3, T := 2, C := 0, G := 0, Insertion := 0, Deletion := 0,
    A_percent := 60, T_percent := 40, C_percent := 0, G_percent := 0,
    Insertion_percent := 0, Deletion_percent := 0 }

/-! Batteries marks the arithmetic of `ℚ` `@[irreducible]`; the concrete
rows appearing in witnesses and counterexamples are evaluated by `decide`,
which needs these operations to reduce. -/
attribute [local semireducible] Rat.mul Rat.add Rat.sub Rat.inv

/-! ## Helper lemmas -/

/-- The zeroing step of the `min_depth` loop, read in the direction the
spec phrases it: keep a value iff it is at least `min_depth`. -/
theorem zeroBelow_eq (m : Int) (n : Nat) :
    (if (n : Int) < m then 0 else n) = if m ≤ (n : Int) then n else 0 := by
  rcases lt_or_le (n : Int) m with h | h
  · simp [h, not_le.mpr h]
  · simp [not_lt.mpr h, h]

/-! ## Claim theorems -/

/-- C4: in whole-reference mode the base counting hardcodes quality
threshold 8 — every row of the initial tally reads the four coverage
arrays computed at threshold 8 — so the result of `calculate_all` is the
same for every caller-supplied `quality_threshold`. -/
theorem calculate_all_ignores_quality_threshold :
    (∀ (bam : Bam) (p : Nat),
      (baseRow bam p).A = covCount bam 8 Base.A (p - 1) ∧
      (baseRow bam p).C = covCount bam 8 Base.C (p - 1) ∧
      (baseRow bam p).G = covCount bam 8 Base.G (p - 1) ∧
      (baseRow bam p).T = covCount bam 8 Base.T (p - 1)) ∧
    ∀ (bam : Bam) (q₁ q₂ : Int) (rf : ℚ) (indels : Bool),
      calculate_all bam q₁ rf indels = calculate_all bam q₂ rf indels := by
  exact ⟨fun bam p => ⟨rfl, rfl, rfl, rfl⟩, fun bam q₁ q₂ rf indels => rfl⟩

/-- C5: the `min_depth` gate of `get_base_counts` is per field — each of
the `A`, `T`, `C`, `G` entries of the returned tally equals its unfiltered
coverage value when that value is at least `min_depth` and 0 otherwise —
and a single row can have some fields zeroed and others retained: the
unfiltered tally `{A:3, T:2, C:0, G:0}` at position 5 with `min_depth = 3`
comes back as `{A:3, T:0, C:0, G:0}`. -/
theorem get_base_counts_min_depth_per_field :
    (∀ (bam : Bam) (p : Nat) (m qt : Int),
      ((get_base_counts bam p m qt).A =
        if m ≤ ((count_coverage bam qt (p - 1)).1 : Int)
        then (count_coverage bam qt (p - 1)).1 else 0) ∧
      ((get_base_counts bam p m qt).T =
        if m ≤ ((count_coverage bam qt (p - 1)).2.1 : Int)
        then (count_coverage bam qt (p - 1)).2.1 else 0) ∧
      ((get_base_counts bam p m qt).C =
        if m ≤ ((count_coverage bam qt (p - 1)).2.2.1 : Int)
        then (count_coverage bam qt (p - 1)).2.2.1 else 0) ∧
      ((get_base_counts bam p m qt).G =
        if m ≤ ((count_coverage bam qt (p - 1)).2.2.2 : Int)
        then (count_coverage bam qt (p - 1)).2.2.2 else 0)) ∧
    get_base_counts bamAC 5 3 0 = ⟨5, 3, 0, 0, 0⟩ := by
  constructor
  · intro bam p m qt
    refine ⟨?_, ?_, ?_, ?_⟩ <;>
      simpa [get_base_counts, minDepthFilter] using
        zeroBelow_eq m _
  · decide

/-- C9: the `min_depth` loop of `get_base_counts` also runs over the
`position` dict key, so the returned row's position is the requested `p`
when `p ≥ min_depth` and 0 when `p < min_depth`; in particular requesting
position 2 with `min_depth = 5` reports position 0. -/
theorem get_base_counts_position_zeroed :
    (∀ (bam : Bam) (p : Nat) (m qt : Int),
      (get_base_counts bam p m qt).position = if m ≤ (p : Int) then p else 0) ∧
    (get_base_counts bamAC 2 5 0).position = 0 := by
  constructor
  · intro bam p m qt
    simpa [get_base_counts, minDepthFilter] using zeroBelow_eq m p
  · decide

/-- C6: the `min_depth` zeroing of lines 50-52 is idempotent — applying
it a second time with the same `min_depth` to an already filtered tally
table changes nothing. -/
theorem minDepthFilter_idempotent :
    ∀ (m : Int) (t : List PileupRow),
      (t.map (minDepthFilter m)).map (minDepthFilter m) = t.map (minDepthFilter m) := by
  have row : ∀ (m : Int) (r : PileupRow),
      minDepthFilter m (minDepthFilter m r) = minDepthFilter m r := by
    intro m r
    have z : ∀ n : Nat,
        (if ((if (n : Int) < m then 0 else n : Nat) : Int) < m
         then 0 else (if (n : Int) < m then 0 else n : Nat)) =
        (if (n : Int) < m then 0 else n : Nat) := by
      intro n
      rcases lt_or_le (n : Int) m with h | h
      · simp [h]
      · simp [not_lt.mpr h]
    simp only [minDepthFilter, PileupRow.mk.injEq]
    exact ⟨z _, z _, z _, z _, z _⟩
  intro m t
  rw [List.map_map]
  exact List.map_congr_left (fun r _ => row m r)

/-- C8: a targeted-mode row whose four counts sum to zero is converted by
`pileup_percentages` into a row whose four percentage cells are all `NaN`
(no exception is raised, the row is still produced); and whole-reference
mode never divides by a zero total, because every row surviving the
zero-coverage drop — exactly the rows `percentTable` feeds to the
percentage computation — has a positive six-column total. -/
theorem zero_total_row_percentages_nan :
    (∀ r : PileupRow, r.A + r.T + r.C + r.G = 0 →
      pileup_percentages_row r = ⟨r.position, none, none, none, none⟩) ∧
    (∀ (rows : List RowN), ∀ s ∈ dropZero rows, 0 < rowTotal s) := by
  constructor
  · intro r h
    have hA : r.A = 0 := by omega
    have hT : r.T = 0 := by omega
    have hC : r.C = 0 := by omega
    have hG : r.G = 0 := by omega
    simp [pileup_percentages_row, pctCell, hA, hT, hC, hG]
  · intro rows s hs
    have := (List.mem_filter.mp hs).2
    simpa using this

/-- Witness for C8: the zero-coverage tally at position 7 maps to four
`NaN` cells, and a particular surviving whole-reference row has positive
total. -/
theorem zero_total_row_percentages_nan_witness :
    pileup_percentages_row ⟨7, 0, 0, 0, 0⟩ = ⟨7, none, none, none, none⟩ ∧
    0 < rowTotal ⟨1, 3, 2, 0, 0, 0, 0⟩ :=
  ⟨zero_total_row_percentages_nan.1 ⟨7, 0, 0, 0, 0⟩ rfl,
   zero_total_row_percentages_nan.2 [⟨1, 3, 2, 0, 0, 0, 0⟩] ⟨1, 3, 2, 0, 0, 0, 0⟩
     (by decide)⟩

/-- Looking a key up succeeds only on the dict's keys. -/
theorem alookup_mem {k : Nat} {v : IndelTally} :
    ∀ {l : List (Nat × IndelTally)}, alookup k l = some v → k ∈ l.map Prod.fst := by
  intro l
  induction l with
  | nil => intro h; simp [alookup] at h
  | cons kv rest ih =>
    intro h
    by_cases hk : k = kv.1
    · simp [hk]
    · rw [show kv = (kv.1, kv.2) from rfl, alookup, if_neg hk] at h
      simp [ih h]

/-- A dict update `d[k] = f d[k]` succeeds whenever `k` is a key, and the
updated dict then yields `f v` at `k`. -/
theorem updAssoc_of_lookup (f : IndelTally → IndelTally) {k : Nat} {v : IndelTally} :
    ∀ {l : List (Nat × IndelTally)}, alookup k l = some v →
      ∃ l', updAssoc k f l = some l' ∧ alookup k l' = some (f v) := by
  intro l
  induction l with
  | nil => intro h; simp [alookup] at h
  | cons kv rest ih =>
    intro h
    by_cases hk : k = kv.1
    · rw [show kv = (kv.1, kv.2) from rfl, alookup, if_pos hk] at h
      refine ⟨(kv.1, f kv.2) :: rest, ?_, ?_⟩
      · rw [show kv = (kv.1, kv.2) from rfl, updAssoc, if_pos hk]
      · rw [alookup, if_pos hk, Option.some_inj.mp h]
    · rw [show kv = (kv.1, kv.2) from rfl, alookup, if_neg hk] at h
      obtain ⟨rest', h1, h2⟩ := ih h
      refine ⟨(kv.1, kv.2) :: rest', ?_, ?_⟩
      · rw [show kv = (kv.1, kv.2) from rfl, updAssoc, if_neg hk, h1]
      · rw [alookup, if_neg hk]; exact h2

/-- C3: the read loop of `count_indels` attributes a deletion observed at
0-based column `c` to the `Deletion` counter of 1-based position `c + 1`,
and a net-positive insertion observed at `c` to the `Insertion` counter of
position `c + 2`, one position further downstream; end to end, the
deletion and insertion both observed at 0-based column 0 of
`bamMidIndel` land at positions 1 and 2 respectively. -/
theorem count_indels_attribution :
    (∀ (d : List (Nat × IndelTally)) (c : Nat) (r : ReadObs) (t : IndelTally),
      (r.isDel = true → alookup (c + 1) d = some t →
        ∃ d', procRead c d r = some d' ∧
          alookup (c + 1) d' = some ⟨t.Deletion + 1, t.Insertion⟩) ∧
      (r.isDel = false → 0 < r.indel → alookup (c + 2) d = some t →
        ∃ d', procRead c d r = some d' ∧
          alookup (c + 2) d' = some ⟨t.Deletion, t.Insertion + 1⟩)) ∧
    (count_indels bamMidIndel).bind (alookup 1) = some ⟨1, 0⟩ ∧
    (count_indels bamMidIndel).bind (alookup 2) = some ⟨0, 1⟩ := by
  refine ⟨?_, by decide, by decide⟩
  intro d c r t
  constructor
  · intro hdel hlk
    obtain ⟨d', h1, h2⟩ :=
      updAssoc_of_lookup (fun t => ⟨t.Deletion + 1, t.Insertion⟩) hlk
    exact ⟨d', by simp [procRead, hdel, h1], h2⟩
  · intro hdel hind hlk
    obtain ⟨d', h1, h2⟩ :=
      updAssoc_of_lookup (fun t => ⟨t.Deletion, t.Insertion + 1⟩) hlk
    exact ⟨d', by simp [procRead, hdel, hind, h1], h2⟩

/-- Witness for C3: with the dict initialised for a reference of length
101, a deletion at 0-based column 99 increments `Deletion` at position
100, and an insertion at the same column increments `Insertion` at
position 101, as in the spec's example. -/
theorem count_indels_attribution_witness :
    (∃ d', procRead 99 (initIndels 101) readDel = some d' ∧
      alookup 100 d' = some ⟨1, 0⟩) ∧
    (∃ d', procRead 99 (initIndels 101) readIns = some d' ∧
      alookup 101 d' = some ⟨0, 1⟩) :=
  ⟨(count_indels_attribution.1 (initIndels 101) 99 readDel ⟨0, 0⟩).1 rfl (by decide),
   (count_indels_attribution.1 (initIndels 101) 99 readIns ⟨0, 0⟩).2 rfl (by decide)
     (by decide)⟩

/-- C2 counterexample: on `bamAT` with `read_fraction = 5` the single
percent-stage row has two nonzero percentage columns after thresholding
(60 and 40), yet the returned mixed-bases table is empty — its raw cells
(3 and 2) were zeroed by the threshold, so line 232's raw-sum re-drop
removes the row.  Retention is therefore not equivalent to having more
than one nonzero percentage column. -/
theorem mixed_bases_filter_not_iff :
    percentTable bamAT false = some [pRowAT] ∧
    1 < nzPercents (thresholdRow 5 pRowAT) ∧
    calculate_all bamAT 0 5 false = some [] :=
  ⟨by decide, by decide, by decide⟩

/-- C2 (amended): a row is retained in the mixed-bases table iff it has
strictly more than one nonzero percentage column **and** its six raw-count
cells still sum to a positive value after the `read_fraction` zeroing; in
particular no returned row has one or zero nonzero percentage columns. -/
theorem mixed_bases_filter_characterisation :
    ∀ (bam : Bam) (q : Int) (rf : ℚ) (i : Bool) (tbl out : List RowQ),
      percentTable bam i = some tbl →
      calculate_all bam q rf i = some out →
      (out = (tbl.map (thresholdRow rf)).filter
          (fun r => decide (0 < rawSumQ r) && decide (1 < nzPercents r))) ∧
      ∀ r ∈ out, 1 < nzPercents r ∧ 0 < rawSumQ r := by
  intro bam q rf i tbl out htbl hout
  rw [calculate_all, htbl] at hout
  simp only [Option.map_some', Option.some_inj] at hout
  subst hout
  constructor
  · simp only [dropZeroQ, ambiguityFilter, List.filter_filter]
  · intro r hr
    simp only [dropZeroQ, ambiguityFilter, List.mem_filter, decide_eq_true_eq] at hr
    exact ⟨hr.1.2, hr.2⟩

/-- Witness for C2 (amended): on `bamAT` with `read_fraction = 0` the
retained table is exactly the characterised filter of the thresholded
percent-stage table. -/
theorem mixed_bases_filter_characterisation_witness :
    ([pRowAT] = (([pRowAT].map (thresholdRow 0)).filter
        (fun r => decide (0 < rawSumQ r) && decide (1 < nzPercents r))) ∧
      ∀ r ∈ [pRowAT], 1 < nzPercents r ∧ 0 < rawSumQ r) :=
  mixed_bases_filter_characterisation bamAT 0 0 false [pRowAT] [pRowAT]
    (by decide) (by decide)

/-- C1: line 211 zeroes, elementwise, every cell of the table that is
strictly below `read_fraction` — the `position` cell, the six raw-count
cells and the six percentage cells alike, with the same un-rescaled
`read_fraction` compared literally against raw counts and against the
0-100 percentage scale: every row of the mixed-bases table arises from a
percent-stage row by the same cellwise `if cell < rf then 0 else cell`. -/
theorem read_fraction_thresholds_every_cell :
    (∀ (rf : ℚ) (r : RowQ),
      (thresholdRow rf r).position = (if r.position < rf then 0 else r.position) ∧
      (thresholdRow rf r).A = (if r.A < rf then 0 else r.A) ∧
      (thresholdRow rf r).T = (if r.T < rf then 0 else r.T) ∧
      (thresholdRow rf r).C = (if r.C < rf then 0 else r.C) ∧
      (thresholdRow rf r).G = (if r.G < rf then 0 else r.G) ∧
      (thresholdRow rf r).Insertion = (if r.Insertion < rf then 0 else r.Insertion) ∧
      (thresholdRow rf r).Deletion = (if r.Deletion < rf then 0 else r.Deletion) ∧
      (thresholdRow rf r).A_percent = (if r.A_percent < rf then 0 else r.A_percent) ∧
      (thresholdRow rf r).T_percent = (if r.T_percent < rf then 0 else r.T_percent) ∧
      (thresholdRow rf r).C_percent = (if r.C_percent < rf then 0 else r.C_percent) ∧
      (thresholdRow rf r).G_percent = (if r.G_percent < rf then 0 else r.G_percent) ∧
      (thresholdRow rf r).Insertion_percent =
        (if r.Insertion_percent < rf then 0 else r.Insertion_percent) ∧
      (thresholdRow rf r).Deletion_percent =
        (if r.Deletion_percent < rf then 0 else r.Deletion_percent)) ∧
    (∀ (bam : Bam) (q : Int) (rf : ℚ) (i : Bool) (out : List RowQ),
      calculate_all bam q rf i = some out →
      ∃ tbl, percentTable bam i = some tbl ∧
        out = dropZeroQ (ambiguityFilter (tbl.map (thresholdRow rf)))) := by
  constructor
  · intro rf r
    exact ⟨rfl, rfl, rfl, rfl, rfl, rfl, rfl, rfl, rfl, rfl, rfl, rfl, rfl⟩
  · intro bam q rf i out hout
    cases htbl : percentTable bam i with
    | none => rw [calculate_all, htbl] at hout; cases hout
    | some tbl =>
      rw [calculate_all, htbl] at hout
      simp only [Option.map_some', Option.some_inj] at hout
      exact ⟨tbl, rfl, hout.symm⟩

/-- Witness for C1: on `bamAT` with `read_fraction = 0` the returned table
is the filtered elementwise thresholding of the percent-stage table. -/
theorem read_fraction_thresholds_every_cell_witness :
    ∃ tbl, percentTable bamAT false = some tbl ∧
      [pRowAT] = dropZeroQ (ambiguityFilter (tbl.map (thresholdRow 0))) :=
  read_fraction_thresholds_every_cell.2 bamAT 0 0 false [pRowAT] (by decide)

/-- A successful `mapOption` carries any projection preserved by the
partial map across the resulting list. -/
theorem mapOption_map_eq {α β γ : Type _} {f : α → Option β} {g : β → γ} {h : α → γ} :
    ∀ {l : List α} {l' : List β}, mapOption f l = some l' →
      (∀ a b, f a = some b → g b = h a) → l'.map g = l.map h := by
  intro l
  induction l with
  | nil =>
    intro l' hm _
    simp only [mapOption, Option.some_inj] at hm
    rw [← hm]
    rfl
  | cons a as ih =>
    intro l' hm hgh
    rw [mapOption] at hm
    cases hfa : f a with
    | none =>
      cases hrest : mapOption f as <;> rw [hfa, hrest] at hm <;> cases hm
    | some b =>
      cases hrest : mapOption f as with
      | none => rw [hfa, hrest] at hm; cases hm
      | some bs =>
        rw [hfa, hrest] at hm
        injection hm with hm
        rw [← hm, List.map_cons, List.map_cons, hgh a b hfa, ih hrest hgh]

/-- Whatever the indel flag, the rows `withIndels` returns carry the
positions `1 .. ref_length` in order. -/
theorem withIndels_positions {bam : Bam} {i : Bool} {rows : List RowN}
    (h : withIndels bam i = some rows) :
    rows.map RowN.position = List.range' 1 bam.refLength := by
  have base : ((List.range' 1 bam.refLength).map (baseRow bam)).map RowN.position
      = List.range' 1 bam.refLength := by
    rw [List.map_map]
    exact (List.map_congr_left fun p _ => rfl).trans (List.map_id _)
  cases i with
  | false =>
    simp only [withIndels, Bool.false_eq_true, if_false, Option.some_inj] at h
    rw [← h]
    exact base
  | true =>
    simp only [withIndels, if_true] at h
    cases hP : count_indels bam with
    | none => rw [hP] at h; cases h
    | some d =>
      rw [hP] at h
      have pres : ∀ (a : RowN) (b : RowN),
          (alookup a.position d).map
            (fun t => { a with Insertion := t.Insertion, Deletion := t.Deletion }) = some b →
          b.position = a.position := by
        intro a b hab
        cases hv : alookup a.position d with
        | none => rw [hv] at hab; cases hab
        | some t =>
          rw [hv] at hab
          simp only [Option.map_some', Option.some_inj] at hab
          rw [← hab]
      rw [mapOption_map_eq h pres]
      exact base

/-- C7 counterexample: on `bamTwoCols` with `read_fraction = 5` both
surviving rows had their `position` cells (1 and 2, both below 5) zeroed
by line 211, so the returned positions are `[0, 0]` — neither strictly
increasing nor pairwise unique. -/
theorem whole_ref_positions_counterexample :
    calculate_all bamTwoCols 0 5 false = some [rowTwo, rowTwo] ∧
    [rowTwo, rowTwo].map RowQ.position = [0, 0] ∧
    ¬ ([rowTwo, rowTwo].map RowQ.position).Pairwise (fun a b => a < b) ∧
    ¬ ([rowTwo, rowTwo].map RowQ.position).Nodup := by
  refine ⟨by decide, by decide, ?_, ?_⟩
  · intro h
    rw [show [rowTwo, rowTwo].map RowQ.position = [(0 : ℚ), 0] from by decide] at h
    exact lt_irrefl (0 : ℚ) ((List.pairwise_cons.mp h).1 0 (by simp))
  · intro h
    rw [show [rowTwo, rowTwo].map RowQ.position = [(0 : ℚ), 0] from by decide] at h
    simp at h

/-- C7 (amended): whenever `read_fraction ≤ 1` — so that line 211 cannot
zero a `position` cell, every position being at least 1 — the positions of
the returned mixed-bases table are strictly increasing and pairwise
unique.  (The default `read_fraction = 0.0` satisfies this.) -/
theorem whole_ref_positions_strictly_increasing :
    ∀ (bam : Bam) (q : Int) (rf : ℚ) (i : Bool) (out : List RowQ),
      rf ≤ 1 → calculate_all bam q rf i = some out →
      (out.map RowQ.position).Pairwise (fun a b => a < b) ∧
      (out.map RowQ.position).Nodup := by
  intro bam q rf i out hrf hout
  cases hw : withIndels bam i with
  | none => rw [calculate_all, percentTable, hw] at hout; cases hout
  | some rows =>
    have hpos := withIndels_positions hw
    rw [calculate_all, percentTable, hw] at hout
    simp only [Option.map_some', Option.some_inj] at hout
    subst hout
    have hone : ∀ r ∈ dropZero rows, 1 ≤ r.position := by
      intro r hr
      have hr' : r ∈ rows := by
        simp only [dropZero, List.mem_filter] at hr
        exact hr.1
      have hmem : r.position ∈ rows.map RowN.position := List.mem_map_of_mem _ hr'
      rw [hpos] at hmem
      exact (List.mem_range'_1.mp hmem).1
    have hmapeq :
        (((dropZero rows).map addPercents).map (thresholdRow rf)).map RowQ.position
          = ((dropZero rows).map RowN.position).map (fun n : Nat => (n : ℚ)) := by
      rw [List.map_map, List.map_map, List.map_map]
      refine List.map_congr_left ?_
      intro r hr
      show thr rf ((r.position : Nat) : ℚ) = ((r.position : Nat) : ℚ)
      have h1 : (1 : ℚ) ≤ ((r.position : Nat) : ℚ) := by exact_mod_cast hone r hr
      rw [thr, if_neg (not_lt.mpr (hrf.trans h1))]
    have hsub :
        List.Sublist
          ((dropZeroQ (ambiguityFilter
            (((dropZero rows).map addPercents).map (thresholdRow rf)))).map RowQ.position)
          ((((dropZero rows).map addPercents).map (thresholdRow rf)).map RowQ.position) :=
      List.Sublist.map _ ((List.filter_sublist _).trans (List.filter_sublist _))
    have hsub2 :
        List.Sublist (((dropZero rows).map RowN.position).map (fun n : Nat => (n : ℚ)))
          ((List.range' 1 bam.refLength).map (fun n : Nat => (n : ℚ))) := by
      have hs : List.Sublist ((dropZero rows).map RowN.position) (rows.map RowN.position) :=
        List.Sublist.map _ (List.filter_sublist _)
      rw [hpos] at hs
      exact List.Sublist.map _ hs
    have hfinal :
        List.Sublist
          ((dropZeroQ (ambiguityFilter
            (((dropZero rows).map addPercents).map (thresholdRow rf)))).map RowQ.position)
          ((List.range' 1 bam.refLength).map (fun n : Nat => (n : ℚ))) :=
      (hmapeq ▸ hsub).trans hsub2
    have hpair :
        ((List.range' 1 bam.refLength).map (fun n : Nat => (n : ℚ))).Pairwise
          (fun a b => a < b) :=
      List.pairwise_map.mpr
        ((List.pairwise_lt_range' 1 bam.refLength).imp (fun h => by exact_mod_cast h))
    refine ⟨List.Pairwise.sublist hfinal hpair, ?_⟩
    exact List.Pairwise.imp (fun h => ne_of_lt h) (List.Pairwise.sublist hfinal hpair)

/-- Witness for C7 (amended): with the default `read_fraction = 0` on
`bamAT`, the returned position list `[1]` is strictly increasing and
duplicate-free. -/
theorem whole_ref_positions_strictly_increasing_witness :
    ([pRowAT].map RowQ.position).Pairwise (fun a b => a < b) ∧
    ([pRowAT].map RowQ.position).Nodup :=
  whole_ref_positions_strictly_increasing bamAT 0 0 false [pRowAT]
    (by norm_num) (by decide)

/-- A dict update fails precisely when the key is absent. -/
theorem updAssoc_none_iff {k : Nat} {f : IndelTally → IndelTally} :
    ∀ {l : List (Nat × IndelTally)}, updAssoc k f l = none ↔ k ∉ l.map Prod.fst := by
  intro l
  induction l with
  | nil => simp [updAssoc]
  | cons kv rest ih =>
    rw [show kv = (kv.1, kv.2) from rfl, updAssoc]
    by_cases hk : k = kv.1
    · simp [if_pos hk, hk]
    · rw [if_neg hk]
      cases hrest : updAssoc k f rest with
      | some rest' =>
        have hkmem : k ∈ rest.map Prod.fst := by
          by_contra hnm
          rw [ih.mpr hnm] at hrest
          cases hrest
        simp [hk, hkmem]
      | none =>
        simp [hk, ih.mp hrest]

/-- A successful dict update leaves the key list unchanged. -/
theorem updAssoc_keys {k : Nat} {f : IndelTally → IndelTally} :
    ∀ {l l' : List (Nat × IndelTally)}, updAssoc k f l = some l' →
      l'.map Prod.fst = l.map Prod.fst := by
  intro l
  induction l with
  | nil => intro l' h; simp [updAssoc] at h
  | cons kv rest ih =>
    intro l' h
    rw [show kv = (kv.1, kv.2) from rfl, updAssoc] at h
    by_cases hk : k = kv.1
    · rw [if_pos hk] at h
      injection h with h
      rw [← h]
      rfl
    · rw [if_neg hk] at h
      cases hrest : updAssoc k f rest with
      | none => rw [hrest] at h; cases h
      | some rest' =>
        rw [hrest] at h
        injection h with h
        rw [← h, List.map_cons, List.map_cons, ih hrest]

/-- One read step leaves the key list unchanged. -/
theorem procRead_keys {c : Nat} {r : ReadObs} {d d' : List (Nat × IndelTally)}
    (h : procRead c d r = some d') : d'.map Prod.fst = d.map Prod.fst := by
  rw [procRead] at h
  by_cases hdel : r.isDel = true
  · rw [if_pos hdel] at h
    exact updAssoc_keys h
  · rw [if_neg hdel] at h
    by_cases hind : 0 < r.indel
    · rw [if_pos hind] at h
      exact updAssoc_keys h
    · rw [if_neg hind] at h
      injection h with h
      rw [← h]

/-- With the dict keyed by `1 .. len` and the column inside the
reference, one read step fails precisely on a net-positive insertion at
the last column (its target key `c + 2 = len + 1` is absent); deletions
always find their key `c + 1 ≤ len`. -/
theorem procRead_none_iff {len c : Nat} {r : ReadObs} {d : List (Nat × IndelTally)}
    (hkeys : d.map Prod.fst = List.range' 1 len) (hc : c < len) :
    procRead c d r = none ↔ (r.isDel = false ∧ 0 < r.indel ∧ c + 1 = len) := by
  rw [procRead]
  by_cases hdel : r.isDel = true
  · rw [if_pos hdel]
    constructor
    · intro h
      exfalso
      have hmem := updAssoc_none_iff.mp h
      rw [hkeys] at hmem
      simp only [List.mem_range'_1, not_and, not_lt] at hmem
      omega
    · rintro ⟨h1, -, -⟩
      rw [hdel] at h1
      cases h1
  · have hdel' : r.isDel = false := by
      revert hdel
      cases r.isDel <;> simp
    rw [if_neg hdel]
    by_cases hind : 0 < r.indel
    · rw [if_pos hind, updAssoc_none_iff, hkeys]
      simp only [List.mem_range'_1, hdel', hind, true_and, not_and, not_lt]
      omega
    · rw [if_neg hind]
      simp [hind]

/-- The read loop leaves the key list unchanged. -/
theorem procReads_keys {c : Nat} :
    ∀ (rs : List ReadObs) {d d' : List (Nat × IndelTally)},
      procReads c d rs = some d' → d'.map Prod.fst = d.map Prod.fst := by
  intro rs
  induction rs with
  | nil =>
    intro d d' h
    rw [procReads] at h
    injection h with h
    rw [← h]
  | cons r rs ih =>
    intro d d' h
    rw [procReads] at h
    cases hp : procRead c d r with
    | none => rw [hp] at h; cases h
    | some d₁ =>
      rw [hp] at h
      rw [ih h]
      exact procRead_keys hp

/-- The read loop over one column fails precisely when some read of the
column shows a net-positive insertion and the column is the last one. -/
theorem procReads_none_iff {len c : Nat} (hc : c < len) :
    ∀ (rs : List ReadObs) (d : List (Nat × IndelTally)),
      d.map Prod.fst = List.range' 1 len →
      (procReads c d rs = none ↔
        ∃ r ∈ rs, r.isDel = false ∧ 0 < r.indel ∧ c + 1 = len) := by
  intro rs
  induction rs with
  | nil => intro d _; simp [procReads]
  | cons r rs ih =>
    intro d hkeys
    rw [procReads]
    cases hp : procRead c d r with
    | some d₁ =>
      have hkeys₁ : d₁.map Prod.fst = List.range' 1 len := by
        rw [procRead_keys hp, hkeys]
      rw [ih d₁ hkeys₁]
      have hnr : ¬ (r.isDel = false ∧ 0 < r.indel ∧ c + 1 = len) := by
        intro htrig
        rw [(procRead_none_iff hkeys hc).mpr htrig] at hp
        cases hp
      constructor
      · rintro ⟨r', hr', h⟩
        exact ⟨r', List.mem_cons_of_mem _ hr', h⟩
      · rintro ⟨r', hmem, h⟩
        rcases List.mem_cons.mp hmem with he | hm
        · exact absurd (he ▸ h) hnr
        · exact ⟨r', hm, h⟩
    | none =>
      refine iff_of_true rfl ?_
      obtain ⟨h1, h2, h3⟩ := (procRead_none_iff hkeys hc).mp hp
      exact ⟨r, List.mem_cons_self r rs, h1, h2, h3⟩

/-- The column loop leaves the key list unchanged. -/
theorem procCols_keys :
    ∀ (cols : List PileupColumn) {d d' : List (Nat × IndelTally)},
      procCols d cols = some d' → d'.map Prod.fst = d.map Prod.fst := by
  intro cols
  induction cols with
  | nil =>
    intro d d' h
    rw [procCols] at h
    injection h with h
    rw [← h]
  | cons col cols ih =>
    intro d d' h
    rw [procCols] at h
    cases hp : procReads col.pos d col.reads with
    | none => rw [hp] at h; cases h
    | some d₁ =>
      rw [hp] at h
      rw [ih h]
      exact procReads_keys _ hp

/-- The column loop fails precisely when some column is the last one of
the reference and carries a net-positive insertion read. -/
theorem procCols_none_iff {len : Nat} :
    ∀ (cols : List PileupColumn) (d : List (Nat × IndelTally)),
      d.map Prod.fst = List.range' 1 len →
      (∀ col ∈ cols, col.pos < len) →
      (procCols d cols = none ↔
        ∃ col ∈ cols, col.pos + 1 = len ∧
          ∃ r ∈ col.reads, r.isDel = false ∧ 0 < r.indel) := by
  intro cols
  induction cols with
  | nil => intro d _ _; simp [procCols]
  | cons col cols ih =>
    intro d hkeys hlt
    have hc : col.pos < len := hlt col (List.mem_cons_self _ _)
    rw [procCols]
    cases hp : procReads col.pos d col.reads with
    | some d₁ =>
      have hkeys₁ : d₁.map Prod.fst = List.range' 1 len := by
        rw [procReads_keys _ hp, hkeys]
      rw [ih d₁ hkeys₁ (fun c' hc' => hlt c' (List.mem_cons_of_mem _ hc'))]
      have hnr : ¬ (col.pos + 1 = len ∧
          ∃ r ∈ col.reads, r.isDel = false ∧ 0 < r.indel) := by
        rintro ⟨hpos, r, hr, h1, h2⟩
        have hnone : procReads col.pos d col.reads = none :=
          (procReads_none_iff hc col.reads d hkeys).mpr ⟨r, hr, h1, h2, hpos⟩
        rw [hnone] at hp
        cases hp
      constructor
      · rintro ⟨c', hm, h⟩
        exact ⟨c', List.mem_cons_of_mem _ hm, h⟩
      · rintro ⟨c', hmem, h⟩
        rcases List.mem_cons.mp hmem with he | hm
        · exact absurd (he ▸ h) hnr
        · exact ⟨c', hm, h⟩
    | none =>
      refine iff_of_true rfl ?_
      obtain ⟨r, hr, h1, h2, h3⟩ := (procReads_none_iff hc col.reads d hkeys).mp hp
      exact ⟨col, List.mem_cons_self _ _, h3, r, hr, h1, h2⟩

/-- The initial dict is keyed by exactly `1 .. len`. -/
theorem initIndels_keys {len : Nat} :
    (initIndels len).map Prod.fst = List.range' 1 len := by
  rw [initIndels, List.map_map]
  exact (List.map_congr_left fun p _ => rfl).trans (List.map_id _)

/-- C10: provided every pileup column lies inside the reference (as pysam
guarantees), `count_indels` raises a missing-key error iff some read at
the last 0-based column `ref_length - 1` shows a net-positive insertion —
the increment then targets the absent key `ref_length + 1`; and whenever
it returns, the returned mapping covers exactly positions
`1 .. ref_length`. -/
theorem count_indels_last_column_key_error :
    ∀ (bam : Bam), (∀ col ∈ bam.pileupCols, col.pos < bam.refLength) →
      ((count_indels bam = none ↔
        ∃ col ∈ bam.pileupCols, col.pos + 1 = bam.refLength ∧
          ∃ r ∈ col.reads, r.isDel = false ∧ 0 < r.indel) ∧
       ∀ d, count_indels bam = some d →
         d.map Prod.fst = List.range' 1 bam.refLength) := by
  intro bam hlt
  constructor
  · exact procCols_none_iff bam.pileupCols (initIndels bam.refLength) initIndels_keys hlt
  · intro d hd
    rw [count_indels] at hd
    rw [procCols_keys _ hd]
    exact initIndels_keys

/-- Witness for C10: on `bamLastIns` (insertion read at the last column)
`count_indels` fails with the missing-key error, while on `bamMidIndel`
(no insertion at the last column) the returned mapping is keyed by
exactly `1 .. 3`. -/
theorem count_indels_last_column_key_error_witness :
    count_indels bamLastIns = none ∧
    ([(1, (⟨1, 0⟩ : IndelTally)), (2, ⟨0, 1⟩), (3, ⟨0, 0⟩)].map Prod.fst
      = List.range' 1 bamMidIndel.refLength) :=
  ⟨(count_indels_last_column_key_error bamLastIns (by decide)).1.mpr
      ⟨⟨1, [readIns]⟩, by decide, rfl, readIns, by decide, rfl, by decide⟩,
   (count_indels_last_column_key_error bamMidIndel (by decide)).2
      [(1, ⟨1, 0⟩), (2, ⟨0, 1⟩), (3, ⟨0, 0⟩)] (by decide)⟩

end Ambigviz
